import Mathlib

set_option maxHeartbeats 1000000

/-!
Verification of the Skytable core against its design specification.

The development shallowly embeds the relevant source functions:

* the Skyhash-2 wire parser (src/server/src/protocol/mod.rs),
* the pipelined executor of the connection handler
  (src/server/src/dbnet/connection.rs),
* the LMOD list-mutation action (src/server/src/actions/lists/lmod.rs),
* the DDL handlers for keyspaces (src/server/src/queryengine/ddl.rs).

Bytes are naturals, buffers are lists of bytes, fallible code returns
Except, and the process-wide registry flag is an explicit Bool argument.
-/

/-- A byte buffer: a view of the connection read buffer, bytes as naturals. -/
abbrev Buf := List Nat

/-- Parser errors, from enum ParseError in src/server/src/protocol/mod.rs. -/
inductive ParseError where
  | NotEnough
  | BadPacket
  | UnexpectedByte
  | DatatypeParseFailure
  deriving DecidableEq

/-- Largest value of a platform word (usize on the 64-bit platform). -/
def USIZE_MAX : Nat := 2 ^ 64 - 1

/-- Parser::read_line_pedantic: advance the cursor to the first LF byte; the
line is the scanned region. Succeed only when an LF was found and the line is
non-empty; otherwise the error is NotEnough when the buffer ran out before any
LF, and BadPacket when an LF terminated an empty line. -/
def read_line_pedantic (b : Buf) : Except ParseError (Buf × Buf) :=
  let line := b.takeWhile (fun x => x != 10)
  match b.dropWhile (fun x => x != 10) with
  | _ :: after => if line.length ≠ 0 then .ok (line, after) else .error .BadPacket
  | [] => .error .NotEnough

/-- One ASCII decimal digit byte. -/
def isDigitByte (d : Nat) : Bool := 48 ≤ d && d ≤ 57

/-- The accumulation loop of Parser::read_usize: for each byte of the line,
require an ASCII digit and perform checked_mul 10 followed by checked_add of
the low nibble (byte & 0x0F), failing with DatatypeParseFailure on a non-digit
or on overflow of the platform word. -/
def read_usize_loop (acc : Nat) : Buf → Except ParseError Nat
  | [] => .ok acc
  | d :: ds =>
    if isDigitByte d then
      if acc * 10 ≤ USIZE_MAX then
        if acc * 10 + d % 16 ≤ USIZE_MAX then
          read_usize_loop (acc * 10 + d % 16) ds
        else .error .DatatypeParseFailure
      else .error .DatatypeParseFailure
    else .error .DatatypeParseFailure

/-- Parser::read_usize: read a pedantic line and accumulate it as a decimal
unsigned integer. -/
def read_usize (b : Buf) : Except ParseError (Nat × Buf) :=
  match read_line_pedantic b with
  | .error e => .error e
  | .ok (line, rest) =>
    match read_usize_loop 0 line with
    | .error e => .error e
    | .ok n => .ok (n, rest)

/-- Parser::read_until: take exactly len bytes, or fail with NotEnough. -/
def read_until (len : Nat) (b : Buf) : Except ParseError (Buf × Buf) :=
  if len ≤ b.length then .ok (b.take len, b.drop len) else .error .NotEnough

/-- A parsed query: enum Query in src/server/src/protocol/mod.rs. An element
slice is represented by the bytes it views. -/
inductive Query where
  | simple (data : List Buf)
  | pipelined (data : List (List Buf))
  deriving DecidableEq

/-- The element loop of Parser::_next_simple_query: for each of the n
elements, read a size line then exactly that many bytes. -/
def read_elements : Nat → Buf → Except ParseError (List Buf × Buf)
  | 0, b => .ok ([], b)
  | n + 1, b =>
    match read_usize b with
    | .error e => .error e
    | .ok (size, b1) =>
      match read_until size b1 with
      | .error e => .error e
      | .ok (elem, b2) =>
        match read_elements n b2 with
        | .error e => .error e
        | .ok (elems, b3) => .ok (elem :: elems, b3)

/-- Parser::_next_simple_query: element count line, then that many elements. -/
def next_simple_query (b : Buf) : Except ParseError (List Buf × Buf) :=
  match read_usize b with
  | .error e => .error e
  | .ok (count, b1) => read_elements count b1

/-- The query loop of Parser::next_pipeline: n simple-query bodies. -/
def read_queries : Nat → Buf → Except ParseError (List (List Buf) × Buf)
  | 0, b => .ok ([], b)
  | n + 1, b =>
    match next_simple_query b with
    | .error e => .error e
    | .ok (q, b1) =>
      match read_queries n b1 with
      | .error e => .error e
      | .ok (qs, b2) => .ok (q :: qs, b2)

/-- Parser::next_pipeline: query count line, then that many bodies. -/
def next_pipeline (b : Buf) : Except ParseError (List (List Buf) × Buf) :=
  match read_usize b with
  | .error e => .error e
  | .ok (count, b1) => read_queries count b1

/-- Parser::_parse: dispatch on the first byte, 42 is the simple-query mark
and 36 the pipeline mark. -/
def parse_body : Buf → Except ParseError (Query × Buf)
  | [] => .error .NotEnough
  | x :: rest =>
    if x = 42 then
      match next_simple_query rest with
      | .error e => .error e
      | .ok (q, b1) => .ok (.simple q, b1)
    else if x = 36 then
      match next_pipeline rest with
      | .error e => .error e
      | .ok (qs, b1) => .ok (.pipelined qs, b1)
    else .error .UnexpectedByte

/-- Parser::parse: run the body parser and report the number of consumed
bytes, the distance from the buffer start to the final cursor. -/
def parse (buf : Buf) : Except ParseError (Query × Nat) :=
  match parse_body buf with
  | .error e => .error e
  | .ok (q, rest) => .ok (q, buf.length - rest.length)

/-- Decimal value of a length line, accumulated left to right exactly as
read_usize_loop accumulates it (low nibble of each digit byte). -/
def lineValueFrom (acc : Nat) : Buf → Nat
  | [] => acc
  | d :: ds => lineValueFrom (acc * 10 + d % 16) ds

/-- Decimal value of a length line starting from zero. -/
def lineValue (ds : Buf) : Nat := lineValueFrom 0 ds

/-- A well-formed count or size token of the wire grammar: one or more ASCII
digits denoting n, with n representable in a platform word. -/
def is_num_token (ds : Buf) (n : Nat) : Prop :=
  ds ≠ [] ∧ (∀ d ∈ ds, isDigitByte d = true) ∧ lineValue ds = n ∧ n ≤ USIZE_MAX

/-- Wire encoding of an element sequence: each element is a size token, an
LF, and exactly size payload bytes, with the next field immediately after. -/
inductive ElementsEnc : Buf → List Buf → Prop where
  | nil : ElementsEnc [] []
  | cons (ds e bs : Buf) (es : List Buf) :
      is_num_token ds e.length → ElementsEnc bs es →
      ElementsEnc (ds ++ 10 :: (e ++ bs)) (e :: es)

/-- Wire encoding of a simple-query body: a count token, an LF, and the
encoded elements. -/
def SimpleBodyEnc (b : Buf) (q : List Buf) : Prop :=
  ∃ ds bs, is_num_token ds q.length ∧ ElementsEnc bs q ∧ b = ds ++ 10 :: bs

/-- Wire encoding of the concatenated bodies of a pipeline. -/
inductive BodiesEnc : Buf → List (List Buf) → Prop where
  | nil : BodiesEnc [] []
  | cons (b bs : Buf) (q : List Buf) (qs : List (List Buf)) :
      SimpleBodyEnc b q → BodiesEnc bs qs → BodiesEnc (b ++ bs) (q :: qs)

/-- One complete valid Skyhash frame denoting a query: the simple-query mark
42 followed by a simple body, or the pipeline mark 36 followed by a query
count token, an LF, and the encoded bodies. -/
def FrameEnc (f : Buf) (q : Query) : Prop :=
  match q with
  | .simple data => ∃ body, SimpleBodyEnc body data ∧ f = 42 :: body
  | .pipelined qs =>
      ∃ ds bs, is_num_token ds qs.length ∧ BodiesEnc bs qs ∧ f = 36 :: (ds ++ 10 :: bs)

/-- Modelled from the spec: corestore/buffers.rs Integer64 is not under src/;
per the spec the pipeline header renders the count in ASCII decimal. -/
def Integer64 (n : Nat) : Buf :=
  if h : n < 10 then [48 + n] else Integer64 (n / 10) ++ [48 + n % 10]
decreasing_by exact Nat.div_lt_self (by omega) (by omega)

/-- ProtocolConnectionExt::write_pipeline_query_header: the byte 36, the
ASCII decimal count, and an LF (src/server/src/dbnet/connection.rs). -/
def write_pipeline_query_header (len : Nat) : Buf :=
  36 :: Integer64 len ++ [10]

/-- Modelled from the spec: queryengine::execute_pipeline is not under src/;
per the spec it runs each sub-query in submission order against the store,
writing each response body in turn. The per-query executor is abstracted as
a state-threading function from a sub-query to its response body. -/
def execute_pipeline (St : Type) (respond : St → List Buf → Buf × St) :
    St → List (List Buf) → Buf × St
  | st, [] => ([], st)
  | st, q :: qs =>
    let out := respond st q
    let outs := execute_pipeline St respond out.2 qs
    (out.1 ++ outs.1, outs.2)

/-- ConnectionHandler::execute_auth as the byte trace it writes: the simple
header 42 then the dispatch result for a simple query; the pipeline header
then the pipelined dispatch for a pipelined query. -/
def execute_auth (St : Type) (respond : St → List Buf → Buf × St) (st : St) :
    Query → Buf × St
  | .simple q =>
    let out := respond st q
    (42 :: out.1, out.2)
  | .pipelined p =>
    let outs := execute_pipeline St respond st p
    (write_pipeline_query_header p.length ++ outs.1, outs.2)

/-- Spec-side description of pipelined output: the list of sub-query response
bodies in submission order, threading the store state left to right. -/
def pipeline_bodies (St : Type) (respond : St → List Buf → Buf × St) :
    St → List (List Buf) → List Buf
  | _, [] => []
  | st, q :: qs =>
    let out := respond st q
    out.1 :: pipeline_bodies St respond out.2 qs

/-- The LMOD subcommand byte strings from src/server/src/actions/lists/lmod.rs. -/
def CLEAR : Buf := [67, 76, 69, 65, 82]

/-- PUSH subcommand bytes. -/
def PUSH : Buf := [80, 85, 83, 72]

/-- REMOVE subcommand bytes. -/
def REMOVE : Buf := [82, 69, 77, 79, 86, 69]

/-- INSERT subcommand bytes. -/
def INSERT : Buf := [73, 78, 83, 69, 82, 84]

/-- POP subcommand bytes. -/
def POP : Buf := [80, 79, 80]

/-- ASCII uppercasing of a byte string, as next_uppercase_unchecked does. -/
def toUppercase (b : Buf) : Buf :=
  b.map (fun x => if 97 ≤ x ∧ x ≤ 122 then x - 32 else x)

/-- The current list-model table: an association of list names to mutex-held
sequences of values (Coremap of Data to RwLock of Vec of Data). -/
abbrev ListTable := List (Buf × List Buf)

/-- Lookup of a list by name in the table (get on the inner concurrent map). -/
def tbl_get (tbl : ListTable) (k : Buf) : Option (List Buf) :=
  List.lookup k tbl

/-- Replacement of the sequence held for a list name (the effect of mutating
through the write lock of that entry). -/
def tbl_set (tbl : ListTable) (k : Buf) (v : List Buf) : ListTable :=
  tbl.map fun e => if e.1 == k then (e.1, v) else e

/-- Responses an LMOD invocation can write, as abstract tokens for the canned
groups plus the monotype value written by a successful POP. -/
inductive LmodResp where
  | aerr
  | okay
  | nil
  | server_err
  | encoding_err
  | wrongtype_err
  | bad_index
  | unknown_action
  | popped (v : Buf)
  deriving DecidableEq

/-- Models the Rust std behavior of parsing an index argument, that is
String::from_utf8_lossy followed by str::parse::<usize>: an optional leading
plus sign then one or more ASCII digits, value within the platform word;
anything else fails. -/
def parse_usize_str (b : Buf) : Option Nat :=
  let ds := match b with | 43 :: rest => rest | _ => b
  if ds ≠ [] ∧ ds.all isDigitByte = true ∧ lineValue ds ≤ USIZE_MAX then
    some (lineValue ds)
  else none

/-- The lmod action handler of src/server/src/actions/lists/lmod.rs, given
the table's value encoder venc, its key encoder kenc (applied by the
encoding-checked KVEList::get used by INSERT and POP), the registry okay
flag, the selected list table, and the argument list after the LMOD verb.
Returns the response written and the table afterwards. -/
def lmod (venc kenc : Buf → Bool) (okay : Bool) (tbl : ListTable)
    (args : List Buf) : LmodResp × ListTable :=
  match args with
  | listname :: subcmd :: rest =>
    let sub := toUppercase subcmd
    if sub = CLEAR then
      if rest.length ≠ 0 then (.aerr, tbl)
      else
        match tbl_get tbl listname with
        | none => (.nil, tbl)
        | some _ =>
          if okay then (.okay, tbl_set tbl listname [])
          else (.server_err, tbl)
    else if sub = PUSH then
      if rest.isEmpty then (.aerr, tbl)
      else
        match tbl_get tbl listname with
        | none => (.nil, tbl)
        | some l =>
          if rest.all venc then
            if okay then (.okay, tbl_set tbl listname (l ++ rest))
            else (.server_err, tbl)
          else (.encoding_err, tbl)
    else if sub = REMOVE then
      match rest with
      | [idxarg] =>
        match parse_usize_str idxarg with
        | none => (.wrongtype_err, tbl)
        | some idx =>
          if okay then
            match tbl_get tbl listname with
            | none => (.nil, tbl)
            | some l =>
              if idx < l.length then (.okay, tbl_set tbl listname (l.eraseIdx idx))
              else (.bad_index, tbl)
          else (.server_err, tbl)
      | _ => (.aerr, tbl)
    else if sub = INSERT then
      match rest with
      | [idxarg, value] =>
        match parse_usize_str idxarg with
        | none => (.wrongtype_err, tbl)
        | some idx =>
          if venc value then
            if okay then
              if kenc listname then
                match tbl_get tbl listname with
                | none => (.nil, tbl)
                | some l =>
                  if idx < l.length then
                    (.okay, tbl_set tbl listname (l.take idx ++ value :: l.drop idx))
                  else (.bad_index, tbl)
              else (.encoding_err, tbl)
            else (.server_err, tbl)
          else (.encoding_err, tbl)
      | _ => (.aerr, tbl)
    else if sub = POP then
      match rest with
      | [] =>
        if okay then
          if kenc listname then
            match tbl_get tbl listname with
            | none => (.nil, tbl)
            | some l =>
              match l.getLast? with
              | some v => (.popped v, tbl_set tbl listname l.dropLast)
              | none => (.bad_index, tbl)
          else (.encoding_err, tbl)
        else (.server_err, tbl)
      | [idxarg] =>
        match parse_usize_str idxarg with
        | none => (.wrongtype_err, tbl)
        | some idx =>
          if okay then
            if kenc listname then
              match tbl_get tbl listname with
              | none => (.nil, tbl)
              | some l =>
                if idx < l.length then
                  (.popped (l.getD idx []), tbl_set tbl listname (l.eraseIdx idx))
                else (.bad_index, tbl)
            else (.encoding_err, tbl)
          else (.server_err, tbl)
      | _ => (.aerr, tbl)
    else (.unknown_action, tbl)
  | _ => (.aerr, tbl)

/-- Responses the keyspace DDL handlers can write, as abstract tokens. -/
inductive DdlResp where
  | aerr
  | okay
  | server_err
  | encoding_err
  | bad_expression
  | name_too_long
  | already_exists
  | unknown_action
  | not_found
  | has_tables
  deriving DecidableEq

/-- One starting byte of the identifier grammar. -/
def is_ident_start_byte (b : Nat) : Bool :=
  (65 ≤ b && b ≤ 90) || (97 ≤ b && b ≤ 122) || b == 95

/-- One continuation byte of the identifier grammar. -/
def is_ident_byte (b : Nat) : Bool :=
  is_ident_start_byte b || (48 ≤ b && b ≤ 57)

/-- Modelled from the spec: queryengine/parser.rs VALID_CONTAINER_NAME is not
under src/; the spec gives the identifier grammar as one letter or underscore
followed by up to 63 letters, digits or underscores. -/
def valid_container_name (s : Buf) : Bool :=
  match s with
  | [] => false
  | c :: cs => is_ident_start_byte c && cs.all is_ident_byte && cs.length ≤ 63

/-- The create_keyspace handler of src/server/src/queryengine/ddl.rs, with
the UTF-8 validity oracle utf8ok standing for kvengine::encoding::is_utf8
(not under src/) and Corestore::create_keyspace modelled from the spec:
duplicate creation is an error, not a silent overwrite. The store is the set
of existing keyspace identifiers. -/
def create_keyspace (utf8ok : Buf → Bool) (okay : Bool) (store : List Buf)
    (args : List Buf) : DdlResp × List Buf :=
  if args.length ≠ 1 then (.aerr, store)
  else
    match args with
    | ksid :: _ =>
      if ¬ utf8ok ksid then (.encoding_err, store)
      else if ¬ valid_container_name ksid then (.bad_expression, store)
      else if ¬ (ksid.length < 64) then (.name_too_long, store)
      else if okay then
        if ksid ∈ store then (.already_exists, store) else (.okay, ksid :: store)
      else (.server_err, store)
    | [] => (.aerr, store)

/-- The force token bytes of src/server/src/queryengine/ddl.rs. -/
def FORCE_REMOVE : Buf := [102, 111, 114, 99, 101]

/-- The drop_keyspace handler of src/server/src/queryengine/ddl.rs. The store
maps each keyspace identifier to its table count; Corestore::drop_keyspace
and force_drop_keyspace are modelled from the spec: the non-force drop fails
on a populated keyspace, the force variant removes it regardless. -/
def ddl_drop_keyspace (okay : Bool) (store : List (Buf × Nat))
    (args : List Buf) : DdlResp × List (Buf × Nat) :=
  if args.length ≠ 1 then (.aerr, store)
  else
    match args with
    | ksid :: restargs =>
      if ¬ (ksid.length < 64) then (.name_too_long, store)
      else
        let force_remove : Option Bool :=
          match restargs with
          | bts :: _ => if bts = FORCE_REMOVE then some true else none
          | [] => some false
        match force_remove with
        | none => (.unknown_action, store)
        | some force =>
          if okay then
            match List.lookup ksid store with
            | none => (.not_found, store)
            | some ntables =>
              if force then (.okay, store.filter (fun e => e.1 != ksid))
              else if ntables = 0 then (.okay, store.filter (fun e => e.1 != ksid))
              else (.has_tables, store)
          else (.server_err, store)
    | [] => (.aerr, store)


theorem length_dropWhile_le (p : Nat → Bool) (l : Buf) :
    (l.dropWhile p).length ≤ l.length := by
  induction l with
  | nil => simp
  | cons x xs ih =>
    by_cases hp : p x
    · simp only [List.dropWhile_cons, hp, if_true]
      exact Nat.le_succ_of_le ih
    · simp [List.dropWhile_cons, hp]

theorem dropWhile_head_not (p : Nat → Bool) {b : Buf} {x : Nat} {xs : Buf}
    (h : b.dropWhile p = x :: xs) : p x = false := by
  induction b with
  | nil => simp at h
  | cons y ys ih =>
    by_cases hp : p y
    · rw [List.dropWhile_cons, if_pos hp] at h
      exact ih h
    · rw [List.dropWhile_cons, if_neg hp] at h
      cases h
      simpa using hp

theorem dropWhile_ne_nil_append {p : Nat → Bool} {b : Buf} (c : Buf)
    (h : b.dropWhile p ≠ []) :
    (b ++ c).takeWhile p = b.takeWhile p ∧
    (b ++ c).dropWhile p = b.dropWhile p ++ c := by
  induction b with
  | nil => simp at h
  | cons x xs ih =>
    by_cases hp : p x
    · rw [List.dropWhile_cons, if_pos hp] at h
      have := ih h
      simp only [List.cons_append, List.takeWhile_cons, List.dropWhile_cons, hp,
        if_true, this.1, this.2, and_self]
    · simp [List.cons_append, List.takeWhile_cons, List.dropWhile_cons, hp]

theorem read_line_pedantic_ok {b l r : Buf}
    (h : read_line_pedantic b = .ok (l, r)) :
    l = b.takeWhile (fun x => x != 10) ∧ l ≠ [] ∧
    b.dropWhile (fun x => x != 10) = 10 :: r := by
  unfold read_line_pedantic at h
  cases hd : b.dropWhile (fun x => x != 10) with
  | nil => rw [hd] at h; simp at h
  | cons x xs =>
    rw [hd] at h
    dsimp only at h
    have hx10 : x = 10 := by
      have hx := dropWhile_head_not (fun y => y != 10) hd
      simpa using hx
    by_cases hl : (b.takeWhile (fun x => x != 10)).length ≠ 0
    · rw [if_pos hl] at h
      simp only [Except.ok.injEq, Prod.mk.injEq] at h
      obtain ⟨h1, h2⟩ := h
      refine ⟨h1.symm, ?_, ?_⟩
      · intro hnil
        rw [h1, hnil] at hl
        simp at hl
      · rw [hx10, h2]
    · rw [if_neg hl] at h
      simp at h

theorem scan_append_stop (p : Nat → Bool) (ds : Buf) (y : Nat) (rest : Buf)
    (hds : ∀ x ∈ ds, p x = true) (hy : p y = false) :
    (ds ++ y :: rest).takeWhile p = ds ∧ (ds ++ y :: rest).dropWhile p = y :: rest := by
  induction ds with
  | nil => simp [List.takeWhile_cons, List.dropWhile_cons, hy]
  | cons d ds ih =>
    have hd : p d = true := hds d (by simp)
    have ihh := ih (fun x hx => hds x (by simp [hx]))
    simp only [List.cons_append, List.takeWhile_cons, List.dropWhile_cons, hd,
      if_true, ihh.1, ihh.2, and_self]

theorem read_line_pedantic_token {ds : Buf} (rest : Buf) (hne : ds ≠ [])
    (h10 : ∀ x ∈ ds, x ≠ 10) :
    read_line_pedantic (ds ++ 10 :: rest) = .ok (ds, rest) := by
  have hs := scan_append_stop (fun x => x != 10) ds 10 rest
    (by intro x hx; simpa using h10 x hx) (by simp)
  unfold read_line_pedantic
  rw [hs.2]
  dsimp only
  rw [hs.1, if_pos (by simpa [List.length_eq_zero] using hne)]

theorem read_line_pedantic_append_ok {b c l r : Buf}
    (h : read_line_pedantic b = .ok (l, r)) :
    read_line_pedantic (b ++ c) = .ok (l, r ++ c) := by
  obtain ⟨h1, h2, h3⟩ := read_line_pedantic_ok h
  have hne : b.dropWhile (fun x => x != 10) ≠ [] := by rw [h3]; simp
  have ha := dropWhile_ne_nil_append c hne
  unfold read_line_pedantic
  rw [ha.2, h3, List.cons_append]
  dsimp only
  rw [ha.1, ← h1, if_pos (by simpa [List.length_eq_zero] using h2)]

theorem read_line_pedantic_append_err {b c : Buf} {e : ParseError}
    (h : read_line_pedantic b = .error e) (he : e ≠ .NotEnough) :
    read_line_pedantic (b ++ c) = .error e := by
  unfold read_line_pedantic at h
  cases hd : b.dropWhile (fun x => x != 10) with
  | nil =>
    rw [hd] at h
    dsimp only at h
    cases h
    exact absurd rfl he
  | cons x xs =>
    rw [hd] at h
    dsimp only at h
    by_cases hl : (b.takeWhile (fun x => x != 10)).length ≠ 0
    · rw [if_pos hl] at h
      cases h
    · rw [if_neg hl] at h
      have hne : b.dropWhile (fun x => x != 10) ≠ [] := by rw [hd]; simp
      have ha := dropWhile_ne_nil_append c hne
      unfold read_line_pedantic
      rw [ha.2, hd, List.cons_append]
      dsimp only
      rw [ha.1, if_neg hl]
      exact h

theorem read_line_pedantic_shrink {b l r : Buf}
    (h : read_line_pedantic b = .ok (l, r)) : r.length < b.length := by
  obtain ⟨-, -, h3⟩ := read_line_pedantic_ok h
  have hle := length_dropWhile_le (fun x => x != 10) b
  rw [h3] at hle
  simp only [List.length_cons] at hle
  omega

theorem lineValueFrom_le {ds : Buf} : ∀ {acc : Nat}, acc ≤ lineValueFrom acc ds := by
  induction ds with
  | nil => intro acc; simp [lineValueFrom]
  | cons d ds ih =>
    intro acc
    have h1 : acc ≤ acc * 10 + d % 16 := by
      have : acc * 1 ≤ acc * 10 := Nat.mul_le_mul_left acc (by norm_num)
      omega
    exact le_trans h1 (by simpa [lineValueFrom] using ih)

theorem read_usize_loop_ok {ds : Buf} : ∀ {acc : Nat},
    (∀ d ∈ ds, isDigitByte d = true) → lineValueFrom acc ds ≤ USIZE_MAX →
    read_usize_loop acc ds = .ok (lineValueFrom acc ds) := by
  induction ds with
  | nil => intro acc _ _; simp [read_usize_loop, lineValueFrom]
  | cons d ds ih =>
    intro acc hdig hle
    have hd : isDigitByte d = true := hdig d (by simp)
    have hstep : lineValueFrom acc (d :: ds) = lineValueFrom (acc * 10 + d % 16) ds := rfl
    rw [hstep] at hle
    have hmid : acc * 10 + d % 16 ≤ USIZE_MAX := le_trans lineValueFrom_le hle
    rw [read_usize_loop, if_pos hd, if_pos (by omega), if_pos hmid, hstep]
    exact ih (fun x hx => hdig x (by simp [hx])) hle

theorem read_usize_loop_overflow {ds : Buf} : ∀ {acc : Nat},
    (∀ d ∈ ds, isDigitByte d = true) → acc ≤ USIZE_MAX →
    USIZE_MAX < lineValueFrom acc ds →
    read_usize_loop acc ds = .error .DatatypeParseFailure := by
  induction ds with
  | nil =>
    intro acc _ hacc hover
    rw [lineValueFrom] at hover
    omega
  | cons d ds ih =>
    intro acc hdig hacc hover
    have hd : isDigitByte d = true := hdig d (by simp)
    rw [read_usize_loop, if_pos hd]
    by_cases h1 : acc * 10 ≤ USIZE_MAX
    · rw [if_pos h1]
      by_cases h2 : acc * 10 + d % 16 ≤ USIZE_MAX
      · rw [if_pos h2]
        exact ih (fun x hx => hdig x (by simp [hx])) h2 hover
      · rw [if_neg h2]
    · rw [if_neg h1]

theorem read_usize_loop_nondigit {ds : Buf} : ∀ {acc : Nat},
    (∃ d ∈ ds, isDigitByte d = false) →
    read_usize_loop acc ds = .error .DatatypeParseFailure := by
  induction ds with
  | nil => intro acc h; simp at h
  | cons d ds ih =>
    intro acc h
    by_cases hd : isDigitByte d = true
    · have hrest : ∃ x ∈ ds, isDigitByte x = false := by
        obtain ⟨x, hx, hxd⟩ := h
        rcases List.mem_cons.mp hx with rfl | hmem
        · rw [hd] at hxd; cases hxd
        · exact ⟨x, hmem, hxd⟩
      rw [read_usize_loop, if_pos hd]
      by_cases h1 : acc * 10 ≤ USIZE_MAX
      · rw [if_pos h1]
        by_cases h2 : acc * 10 + d % 16 ≤ USIZE_MAX
        · rw [if_pos h2]; exact ih hrest
        · rw [if_neg h2]
      · rw [if_neg h1]
    · rw [read_usize_loop, if_neg hd]

theorem isDigitByte_ne_10 {d : Nat} (h : isDigitByte d = true) : d ≠ 10 := by
  simp only [isDigitByte, Bool.and_eq_true, decide_eq_true_eq] at h
  omega

theorem read_usize_token {ds : Buf} {n : Nat} (rest : Buf) (h : is_num_token ds n) :
    read_usize (ds ++ 10 :: rest) = .ok (n, rest) := by
  obtain ⟨hne, hdig, hval, hle⟩ := h
  have hline := read_line_pedantic_token rest hne
    (fun x hx => isDigitByte_ne_10 (hdig x hx))
  rw [read_usize, hline]
  dsimp only
  rw [show read_usize_loop 0 ds = .ok (lineValue ds) from
    read_usize_loop_ok hdig (by rw [show lineValueFrom 0 ds = lineValue ds from rfl, hval]; exact hle)]
  rw [hval]

theorem read_usize_append_ok {b c : Buf} {n : Nat} {r : Buf}
    (h : read_usize b = .ok (n, r)) :
    read_usize (b ++ c) = .ok (n, r ++ c) := by
  rw [read_usize] at h
  cases hl : read_line_pedantic b with
  | error e => rw [hl] at h; cases h
  | ok lr =>
    obtain ⟨line, rest⟩ := lr
    rw [hl] at h
    dsimp only at h
    cases hloop : read_usize_loop 0 line with
    | error e => rw [hloop] at h; cases h
    | ok m =>
      rw [hloop] at h
      cases h
      rw [read_usize, read_line_pedantic_append_ok hl]
      dsimp only
      rw [hloop]

theorem read_usize_append_err {b c : Buf} {e : ParseError}
    (h : read_usize b = .error e) (he : e ≠ .NotEnough) :
    read_usize (b ++ c) = .error e := by
  rw [read_usize] at h
  cases hl : read_line_pedantic b with
  | error e1 =>
    rw [hl] at h
    cases h
    rw [read_usize, read_line_pedantic_append_err hl he]
  | ok lr =>
    obtain ⟨line, rest⟩ := lr
    rw [hl] at h
    dsimp only at h
    cases hloop : read_usize_loop 0 line with
    | error e1 =>
      rw [hloop] at h
      cases h
      rw [read_usize, read_line_pedantic_append_ok hl]
      dsimp only
      rw [hloop]
    | ok m => rw [hloop] at h; cases h

theorem read_usize_shrink {b : Buf} {n : Nat} {r : Buf}
    (h : read_usize b = .ok (n, r)) : r.length < b.length := by
  rw [read_usize] at h
  cases hl : read_line_pedantic b with
  | error e => rw [hl] at h; cases h
  | ok lr =>
    obtain ⟨line, rest⟩ := lr
    rw [hl] at h
    dsimp only at h
    cases hloop : read_usize_loop 0 line with
    | error e => rw [hloop] at h; cases h
    | ok m =>
      rw [hloop] at h
      cases h
      exact read_line_pedantic_shrink hl

theorem read_until_exact (e : Buf) (rest : Buf) :
    read_until e.length (e ++ rest) = .ok (e, rest) := by
  rw [read_until, if_pos (by simp)]
  rw [List.take_append_of_le_length (by simp), List.drop_append_of_le_length (by simp)]
  simp

theorem read_until_append_ok {len : Nat} {b c a r : Buf}
    (h : read_until len b = .ok (a, r)) :
    read_until len (b ++ c) = .ok (a, r ++ c) := by
  rw [read_until] at h
  by_cases hle : len ≤ b.length
  · rw [if_pos hle] at h
    cases h
    rw [read_until, if_pos (by simp; omega)]
    rw [List.take_append_of_le_length hle, List.drop_append_of_le_length hle]
  · rw [if_neg hle] at h; cases h

theorem read_until_append_err {len : Nat} {b c : Buf} {e : ParseError}
    (h : read_until len b = .error e) (he : e ≠ .NotEnough) :
    read_until len (b ++ c) = .error e := by
  rw [read_until] at h
  by_cases hle : len ≤ b.length
  · rw [if_pos hle] at h; cases h
  · rw [if_neg hle] at h
    cases h
    exact absurd rfl he

theorem read_until_shrink {len : Nat} {b a r : Buf}
    (h : read_until len b = .ok (a, r)) : r.length ≤ b.length := by
  rw [read_until] at h
  by_cases hle : len ≤ b.length
  · rw [if_pos hle] at h
    cases h
    simp
  · rw [if_neg hle] at h; cases h

theorem read_elements_append_ok {n : Nat} : ∀ {b c : Buf} {es : List Buf} {r : Buf},
    read_elements n b = .ok (es, r) →
    read_elements n (b ++ c) = .ok (es, r ++ c) := by
  induction n with
  | zero =>
    intro b c es r h
    rw [read_elements] at h
    cases h
    rw [read_elements]
  | succ n ih =>
    intro b c es r h
    rw [read_elements] at h
    cases hu : read_usize b with
    | error e => rw [hu] at h; cases h
    | ok sz =>
      obtain ⟨size, b1⟩ := sz
      rw [hu] at h
      dsimp only at h
      cases ht : read_until size b1 with
      | error e => rw [ht] at h; cases h
      | ok er =>
        obtain ⟨elem, b2⟩ := er
        rw [ht] at h
        dsimp only at h
        cases he : read_elements n b2 with
        | error e => rw [he] at h; cases h
        | ok esr =>
          obtain ⟨elems, b3⟩ := esr
          rw [he] at h
          dsimp only at h
          cases h
          rw [read_elements, read_usize_append_ok hu]
          dsimp only
          rw [read_until_append_ok ht]
          dsimp only
          rw [ih he]

theorem read_elements_append_err {n : Nat} : ∀ {b c : Buf} {e : ParseError},
    read_elements n b = .error e → e ≠ .NotEnough →
    read_elements n (b ++ c) = .error e := by
  induction n with
  | zero => intro b c e h _; rw [read_elements] at h; cases h
  | succ n ih =>
    intro b c e h he
    rw [read_elements] at h
    cases hu : read_usize b with
    | error e1 =>
      rw [hu] at h
      cases h
      rw [read_elements, read_usize_append_err hu he]
    | ok sz =>
      obtain ⟨size, b1⟩ := sz
      rw [hu] at h
      dsimp only at h
      cases ht : read_until size b1 with
      | error e1 =>
        rw [ht] at h
        cases h
        rw [read_elements, read_usize_append_ok hu]
        dsimp only
        rw [read_until_append_err ht he]
      | ok er =>
        obtain ⟨elem, b2⟩ := er
        rw [ht] at h
        dsimp only at h
        cases hel : read_elements n b2 with
        | error e1 =>
          rw [hel] at h
          cases h
          rw [read_elements, read_usize_append_ok hu]
          dsimp only
          rw [read_until_append_ok ht]
          dsimp only
          rw [ih hel he]
        | ok esr =>
          obtain ⟨elems, b3⟩ := esr
          rw [hel] at h
          dsimp only at h
          cases h

theorem read_elements_shrink {n : Nat} : ∀ {b : Buf} {es : List Buf} {r : Buf},
    read_elements n b = .ok (es, r) → r.length ≤ b.length := by
  induction n with
  | zero =>
    intro b es r h
    rw [read_elements] at h
    cases h
    exact le_refl _
  | succ n ih =>
    intro b es r h
    rw [read_elements] at h
    cases hu : read_usize b with
    | error e => rw [hu] at h; cases h
    | ok sz =>
      obtain ⟨size, b1⟩ := sz
      rw [hu] at h
      dsimp only at h
      cases ht : read_until size b1 with
      | error e => rw [ht] at h; cases h
      | ok er =>
        obtain ⟨elem, b2⟩ := er
        rw [ht] at h
        dsimp only at h
        cases he : read_elements n b2 with
        | error e => rw [he] at h; cases h
        | ok esr =>
          obtain ⟨elems, b3⟩ := esr
          rw [he] at h
          dsimp only at h
          cases h
          have h1 := read_usize_shrink hu
          have h2 := read_until_shrink ht
          have h3 := ih he
          omega

theorem next_simple_query_append_ok {b c : Buf} {q : List Buf} {r : Buf}
    (h : next_simple_query b = .ok (q, r)) :
    next_simple_query (b ++ c) = .ok (q, r ++ c) := by
  rw [next_simple_query] at h
  cases hu : read_usize b with
  | error e => rw [hu] at h; cases h
  | ok sz =>
    obtain ⟨count, b1⟩ := sz
    rw [hu] at h
    dsimp only at h
    rw [next_simple_query, read_usize_append_ok hu]
    dsimp only
    exact read_elements_append_ok h

theorem next_simple_query_append_err {b c : Buf} {e : ParseError}
    (h : next_simple_query b = .error e) (he : e ≠ .NotEnough) :
    next_simple_query (b ++ c) = .error e := by
  rw [next_simple_query] at h
  cases hu : read_usize b with
  | error e1 =>
    rw [hu] at h
    cases h
    rw [next_simple_query, read_usize_append_err hu he]
  | ok sz =>
    obtain ⟨count, b1⟩ := sz
    rw [hu] at h
    dsimp only at h
    rw [next_simple_query, read_usize_append_ok hu]
    dsimp only
    exact read_elements_append_err h he

theorem next_simple_query_shrink {b : Buf} {q : List Buf} {r : Buf}
    (h : next_simple_query b = .ok (q, r)) : r.length ≤ b.length := by
  rw [next_simple_query] at h
  cases hu : read_usize b with
  | error e => rw [hu] at h; cases h
  | ok sz =>
    obtain ⟨count, b1⟩ := sz
    rw [hu] at h
    dsimp only at h
    have h1 := read_usize_shrink hu
    have h2 := read_elements_shrink h
    omega

theorem read_queries_append_ok {n : Nat} : ∀ {b c : Buf} {qs : List (List Buf)} {r : Buf},
    read_queries n b = .ok (qs, r) →
    read_queries n (b ++ c) = .ok (qs, r ++ c) := by
  induction n with
  | zero =>
    intro b c qs r h
    rw [read_queries] at h
    cases h
    rw [read_queries]
  | succ n ih =>
    intro b c qs r h
    rw [read_queries] at h
    cases hq : next_simple_query b with
    | error e => rw [hq] at h; cases h
    | ok qb =>
      obtain ⟨q, b1⟩ := qb
      rw [hq] at h
      dsimp only at h
      cases hr : read_queries n b1 with
      | error e => rw [hr] at h; cases h
      | ok qsr =>
        obtain ⟨qs1, b2⟩ := qsr
        rw [hr] at h
        dsimp only at h
        cases h
        rw [read_queries, next_simple_query_append_ok hq]
        dsimp only
        rw [ih hr]

theorem read_queries_append_err {n : Nat} : ∀ {b c : Buf} {e : ParseError},
    read_queries n b = .error e → e ≠ .NotEnough →
    read_queries n (b ++ c) = .error e := by
  induction n with
  | zero => intro b c e h _; rw [read_queries] at h; cases h
  | succ n ih =>
    intro b c e h he
    rw [read_queries] at h
    cases hq : next_simple_query b with
    | error e1 =>
      rw [hq] at h
      cases h
      rw [read_queries, next_simple_query_append_err hq he]
    | ok qb =>
      obtain ⟨q, b1⟩ := qb
      rw [hq] at h
      dsimp only at h
      cases hr : read_queries n b1 with
      | error e1 =>
        rw [hr] at h
        cases h
        rw [read_queries, next_simple_query_append_ok hq]
        dsimp only
        rw [ih hr he]
      | ok qsr =>
        obtain ⟨qs1, b2⟩ := qsr
        rw [hr] at h
        dsimp only at h
        cases h

theorem read_queries_shrink {n : Nat} : ∀ {b : Buf} {qs : List (List Buf)} {r : Buf},
    read_queries n b = .ok (qs, r) → r.length ≤ b.length := by
  induction n with
  | zero =>
    intro b qs r h
    rw [read_queries] at h
    cases h
    exact le_refl _
  | succ n ih =>
    intro b qs r h
    rw [read_queries] at h
    cases hq : next_simple_query b with
    | error e => rw [hq] at h; cases h
    | ok qb =>
      obtain ⟨q, b1⟩ := qb
      rw [hq] at h
      dsimp only at h
      cases hr : read_queries n b1 with
      | error e => rw [hr] at h; cases h
      | ok qsr =>
        obtain ⟨qs1, b2⟩ := qsr
        rw [hr] at h
        dsimp only at h
        cases h
        have h1 := next_simple_query_shrink hq
        have h2 := ih hr
        omega

theorem next_pipeline_append_ok {b c : Buf} {qs : List (List Buf)} {r : Buf}
    (h : next_pipeline b = .ok (qs, r)) :
    next_pipeline (b ++ c) = .ok (qs, r ++ c) := by
  rw [next_pipeline] at h
  cases hu : read_usize b with
  | error e => rw [hu] at h; cases h
  | ok sz =>
    obtain ⟨count, b1⟩ := sz
    rw [hu] at h
    dsimp only at h
    rw [next_pipeline, read_usize_append_ok hu]
    dsimp only
    exact read_queries_append_ok h

theorem next_pipeline_append_err {b c : Buf} {e : ParseError}
    (h : next_pipeline b = .error e) (he : e ≠ .NotEnough) :
    next_pipeline (b ++ c) = .error e := by
  rw [next_pipeline] at h
  cases hu : read_usize b with
  | error e1 =>
    rw [hu] at h
    cases h
    rw [next_pipeline, read_usize_append_err hu he]
  | ok sz =>
    obtain ⟨count, b1⟩ := sz
    rw [hu] at h
    dsimp only at h
    rw [next_pipeline, read_usize_append_ok hu]
    dsimp only
    exact read_queries_append_err h he

theorem next_pipeline_shrink {b : Buf} {qs : List (List Buf)} {r : Buf}
    (h : next_pipeline b = .ok (qs, r)) : r.length ≤ b.length := by
  rw [next_pipeline] at h
  cases hu : read_usize b with
  | error e => rw [hu] at h; cases h
  | ok sz =>
    obtain ⟨count, b1⟩ := sz
    rw [hu] at h
    dsimp only at h
    have h1 := read_usize_shrink hu
    have h2 := read_queries_shrink h
    omega

theorem parse_body_append_ok {b c : Buf} {q : Query} {r : Buf}
    (h : parse_body b = .ok (q, r)) :
    parse_body (b ++ c) = .ok (q, r ++ c) := by
  cases b with
  | nil => rw [parse_body] at h; cases h
  | cons x rest =>
    rw [parse_body] at h
    rw [List.cons_append, parse_body]
    by_cases h42 : x = 42
    · rw [if_pos h42] at h ⊢
      cases hq : next_simple_query rest with
      | error e => rw [hq] at h; cases h
      | ok qb =>
        obtain ⟨q1, b1⟩ := qb
        rw [hq] at h
        dsimp only at h
        cases h
        rw [next_simple_query_append_ok hq]
    · rw [if_neg h42] at h ⊢
      by_cases h36 : x = 36
      · rw [if_pos h36] at h ⊢
        cases hq : next_pipeline rest with
        | error e => rw [hq] at h; cases h
        | ok qb =>
          obtain ⟨qs, b1⟩ := qb
          rw [hq] at h
          dsimp only at h
          cases h
          rw [next_pipeline_append_ok hq]
      · rw [if_neg h36] at h
        cases h

theorem parse_body_append_err {b c : Buf} {e : ParseError}
    (h : parse_body b = .error e) (he : e ≠ .NotEnough) :
    parse_body (b ++ c) = .error e := by
  cases b with
  | nil =>
    rw [parse_body] at h
    cases h
    exact absurd rfl he
  | cons x rest =>
    rw [parse_body] at h
    rw [List.cons_append, parse_body]
    by_cases h42 : x = 42
    · rw [if_pos h42] at h ⊢
      cases hq : next_simple_query rest with
      | error e1 =>
        rw [hq] at h
        cases h
        rw [next_simple_query_append_err hq he]
      | ok qb =>
        obtain ⟨q1, b1⟩ := qb
        rw [hq] at h
        dsimp only at h
        cases h
    · rw [if_neg h42] at h ⊢
      by_cases h36 : x = 36
      · rw [if_pos h36] at h ⊢
        cases hq : next_pipeline rest with
        | error e1 =>
          rw [hq] at h
          cases h
          rw [next_pipeline_append_err hq he]
        | ok qb =>
          obtain ⟨qs, b1⟩ := qb
          rw [hq] at h
          dsimp only at h
          cases h
      · rw [if_neg h36] at h ⊢
        exact h

theorem parse_body_shrink {b : Buf} {q : Query} {r : Buf}
    (h : parse_body b = .ok (q, r)) : r.length < b.length := by
  cases b with
  | nil => rw [parse_body] at h; cases h
  | cons x rest =>
    rw [parse_body] at h
    by_cases h42 : x = 42
    · rw [if_pos h42] at h
      cases hq : next_simple_query rest with
      | error e => rw [hq] at h; cases h
      | ok qb =>
        obtain ⟨q1, b1⟩ := qb
        rw [hq] at h
        dsimp only at h
        cases h
        have := next_simple_query_shrink hq
        simp only [List.length_cons]
        omega
    · rw [if_neg h42] at h
      by_cases h36 : x = 36
      · rw [if_pos h36] at h
        cases hq : next_pipeline rest with
        | error e => rw [hq] at h; cases h
        | ok qb =>
          obtain ⟨qs, b1⟩ := qb
          rw [hq] at h
          dsimp only at h
          cases h
          have := next_pipeline_shrink hq
          simp only [List.length_cons]
          omega
      · rw [if_neg h36] at h
        cases h

/-- C2: for every buffer b and split point k with k at most the length of b,
parsing the prefix of b of length k either returns the NotEnough error or
returns exactly what parsing all of b returns, and when that is a
(Query, consumed) pair the consumed count is at most k: the parser is
prefix-monotonic. -/
theorem parse_prefix_monotonic (b : Buf) (k : Nat) (hk : k ≤ b.length) :
    parse (b.take k) = .error ParseError.NotEnough ∨
    (parse (b.take k) = parse b ∧
      ∀ q n, parse (b.take k) = .ok (q, n) → n ≤ k) := by
  have hsplit : b.take k ++ b.drop k = b := List.take_append_drop k b
  have hlen_take : (b.take k).length = k := by
    rw [List.length_take]
    omega
  cases hp : parse_body (b.take k) with
  | error e =>
    by_cases he : e = ParseError.NotEnough
    · left
      rw [parse, hp, he]
    · right
      have hb : parse_body b = .error e := by
        have := parse_body_append_err (c := b.drop k) hp he
        rwa [hsplit] at this
      constructor
      · unfold parse
        rw [hp, hb]
      · intro q n hq
        rw [parse, hp] at hq
        cases hq
  | ok qr =>
    obtain ⟨q, rest⟩ := qr
    right
    have hshr : rest.length < k := by
      have := parse_body_shrink hp
      omega
    have hb : parse_body b = .ok (q, rest ++ b.drop k) := by
      have := parse_body_append_ok (c := b.drop k) hp
      rwa [hsplit] at this
    constructor
    · unfold parse
      rw [hp, hb]
      dsimp only
      rw [hlen_take]
      have : b.length - (rest ++ b.drop k).length = k - rest.length := by
        simp only [List.length_append, List.length_drop]
        omega
      rw [this]
    · intro q1 n hq
      rw [parse, hp] at hq
      dsimp only at hq
      rw [hlen_take] at hq
      cases hq
      omega

theorem read_elements_enc {bs : Buf} {es : List Buf} (h : ElementsEnc bs es) :
    ∀ rest : Buf, read_elements es.length (bs ++ rest) = .ok (es, rest) := by
  induction h with
  | nil =>
    intro rest
    simp only [List.length_nil, List.nil_append]
    rw [read_elements]
  | cons ds e bs es hnum henc ih =>
    intro rest
    simp only [List.length_cons]
    rw [read_elements]
    have hbuf : (ds ++ 10 :: (e ++ bs)) ++ rest = ds ++ 10 :: (e ++ (bs ++ rest)) := by
      simp
    rw [hbuf, read_usize_token (e ++ (bs ++ rest)) hnum]
    dsimp only
    rw [read_until_exact e (bs ++ rest)]
    dsimp only
    rw [ih rest]

theorem next_simple_query_enc {b : Buf} {q : List Buf} (h : SimpleBodyEnc b q)
    (rest : Buf) : next_simple_query (b ++ rest) = .ok (q, rest) := by
  obtain ⟨ds, bs, hnum, henc, rfl⟩ := h
  have hbuf : (ds ++ 10 :: bs) ++ rest = ds ++ 10 :: (bs ++ rest) := by simp
  rw [next_simple_query, hbuf, read_usize_token (bs ++ rest) hnum]
  dsimp only
  exact read_elements_enc henc rest

theorem read_queries_enc {bs : Buf} {qs : List (List Buf)} (h : BodiesEnc bs qs) :
    ∀ rest : Buf, read_queries qs.length (bs ++ rest) = .ok (qs, rest) := by
  induction h with
  | nil =>
    intro rest
    simp only [List.length_nil, List.nil_append]
    rw [read_queries]
  | cons b bs q qs hq hrest ih =>
    intro rest
    simp only [List.length_cons]
    rw [read_queries]
    have hbuf : (b ++ bs) ++ rest = b ++ (bs ++ rest) := by simp
    rw [hbuf, next_simple_query_enc hq (bs ++ rest)]
    dsimp only
    rw [ih rest]

theorem parse_body_enc {f : Buf} {q : Query} (h : FrameEnc f q) :
    parse_body f = .ok (q, []) := by
  cases q with
  | simple data =>
    obtain ⟨body, hbody, rfl⟩ := h
    rw [parse_body, if_pos rfl]
    have := next_simple_query_enc hbody []
    rw [List.append_nil] at this
    rw [this]
  | pipelined qs =>
    obtain ⟨ds, bs, hnum, henc, rfl⟩ := h
    rw [parse_body, if_neg (by norm_num), if_pos rfl]
    have hq : next_pipeline (ds ++ 10 :: bs) = .ok (qs, []) := by
      have hbuf : ds ++ 10 :: bs = ds ++ 10 :: (bs ++ []) := by simp
      rw [next_pipeline, hbuf, read_usize_token (bs ++ []) hnum]
      dsimp only
      have := read_queries_enc henc []
      simpa using this
    rw [hq]

/-- C1: for every byte buffer containing one complete valid Skyhash frame f
(a simple query or a pipeline), Parser::parse on f returns the parsed Query
together with a consumed-byte count exactly equal to the length of f — never
more, never fewer. -/
theorem parse_valid_frame_consumes_exact (f : Buf) (q : Query) (h : FrameEnc f q) :
    parse f = .ok (q, f.length) := by
  rw [parse, parse_body_enc h]
  simp

theorem parse_valid_frame_consumes_exact_witness :
    FrameEnc [42, 49, 10, 49, 10, 120] (Query.simple [[120]]) ∧
    parse [42, 49, 10, 49, 10, 120] = .ok (Query.simple [[120]], 6) := by
  have henc : FrameEnc [42, 49, 10, 49, 10, 120] (Query.simple [[120]]) := by
    refine ⟨[49, 10, 49, 10, 120], ⟨[49], [49, 10, 120], ?_, ?_, rfl⟩, rfl⟩
    · refine ⟨by simp, ?_, by decide, by decide⟩
      intro d hd
      simp at hd
      subst hd
      decide
    · exact ElementsEnc.cons [49] [120] [] [] ⟨by simp, by decide, by decide, by decide⟩ ElementsEnc.nil
  exact ⟨henc, parse_valid_frame_consumes_exact _ _ henc⟩

/-- C8: whenever the parser reads a count or size line that is empty (zero
digits before the line terminator), it fails with NotEnough if no LF has
been encountered yet (the buffer ran out), and with BadPacket if the empty
line was terminated by an LF. -/
theorem read_line_pedantic_empty_line (b : Buf)
    (h : b.takeWhile (fun x => x != 10) = []) :
    read_line_pedantic b =
      .error (if b = [] then ParseError.NotEnough else ParseError.BadPacket) := by
  cases b with
  | nil => rfl
  | cons x xs =>
    rw [List.takeWhile_cons] at h
    by_cases hx : (x != 10) = true
    · rw [if_pos hx] at h
      cases h
    · have hx10 : x = 10 := by simpa using hx
      subst hx10
      rfl

theorem read_line_pedantic_empty_line_witness :
    List.takeWhile (fun x => x != 10) [10, 50] = [] ∧
    read_line_pedantic [10, 50] =
      .error (if ([10, 50] : Buf) = [] then ParseError.NotEnough else ParseError.BadPacket) := by
  refine ⟨by decide, read_line_pedantic_empty_line [10, 50] (by decide)⟩

/-- C9: when the parser reads a count or size field, any non-digit byte in
the length line, or any overflow of the platform-word unsigned accumulator
during the multiply-by-10 and add-digit steps, makes the parse fail with
DatatypeParseFailure; every length value representable in a platform word is
accepted with its decimal value. -/
theorem read_usize_length_line_spec (ds rest : Buf) (h1 : ds ≠ [])
    (h2 : ∀ x ∈ ds, x ≠ 10) :
    read_usize (ds ++ 10 :: rest) =
      if (∀ x ∈ ds, isDigitByte x = true) ∧ lineValue ds ≤ USIZE_MAX then
        .ok (lineValue ds, rest)
      else .error ParseError.DatatypeParseFailure := by
  have hline := read_line_pedantic_token rest h1 h2
  rw [read_usize, hline]
  dsimp only
  by_cases hcond : (∀ x ∈ ds, isDigitByte x = true) ∧ lineValue ds ≤ USIZE_MAX
  · rw [if_pos hcond]
    rw [read_usize_loop_ok hcond.1 hcond.2]
    rfl
  · rw [if_neg hcond]
    by_cases hdig : ∀ x ∈ ds, isDigitByte x = true
    · have hover : USIZE_MAX < lineValue ds := by
        rcases not_and_or.mp hcond with hc | hc
        · exact absurd hdig hc
        · omega
      rw [read_usize_loop_overflow hdig (by rw [USIZE_MAX]; omega) hover]
    · have hnd : ∃ x ∈ ds, isDigitByte x = false := by
        push_neg at hdig
        obtain ⟨x, hx, hxd⟩ := hdig
        exact ⟨x, hx, by simpa using hxd⟩
      rw [read_usize_loop_nondigit hnd]

theorem read_usize_length_line_spec_witness :
    (([52, 50] : Buf) ≠ [] ∧ ∀ x ∈ ([52, 50] : Buf), x ≠ 10) ∧
    read_usize ([52, 50] ++ 10 :: []) =
      (if (∀ x ∈ ([52, 50] : Buf), isDigitByte x = true) ∧
          lineValue [52, 50] ≤ USIZE_MAX then
        .ok (lineValue [52, 50], [])
      else .error ParseError.DatatypeParseFailure) := by
  exact ⟨⟨by decide, by decide⟩,
    read_usize_length_line_spec [52, 50] [] (by decide) (by decide)⟩

theorem execute_pipeline_join (St : Type) (respond : St → List Buf → Buf × St) :
    ∀ (p : List (List Buf)) (st : St),
      (execute_pipeline St respond st p).1 = (pipeline_bodies St respond st p).flatten ∧
      (pipeline_bodies St respond st p).length = p.length := by
  intro p
  induction p with
  | nil => intro st; simp [execute_pipeline, pipeline_bodies]
  | cons q qs ih =>
    intro st
    rw [execute_pipeline, pipeline_bodies]
    have := ih (respond st q).2
    simp only [List.flatten, List.length_cons, this.1, this.2, and_self]

/-- C3: for every pipelined query of N sub-queries executed by the
authenticated executor, the connection writes exactly the pipeline header —
the byte 36 (the dollar sign), the ASCII decimal rendering of N, and the LF
byte — followed by the N sub-query response bodies in the order the
sub-queries appeared in the input pipeline. -/
theorem execute_auth_pipeline_header_and_order (St : Type)
    (respond : St → List Buf → Buf × St) (st : St) (p : List (List Buf)) :
    (execute_auth St respond st (.pipelined p)).1 =
      36 :: (Integer64 p.length ++ 10 :: (pipeline_bodies St respond st p).flatten) ∧
    (pipeline_bodies St respond st p).length = p.length := by
  have hj := execute_pipeline_join St respond p st
  rw [execute_auth]
  refine ⟨?_, hj.2⟩
  dsimp only
  rw [write_pipeline_query_header, hj.1]
  simp

theorem parse_prefix_monotonic_witness :
    3 ≤ ([42, 49, 10, 49, 10, 120] : Buf).length ∧
    (parse (([42, 49, 10, 49, 10, 120] : Buf).take 3) = .error ParseError.NotEnough ∨
      (parse (([42, 49, 10, 49, 10, 120] : Buf).take 3) = parse [42, 49, 10, 49, 10, 120] ∧
        ∀ q n, parse (([42, 49, 10, 49, 10, 120] : Buf).take 3) = .ok (q, n) → n ≤ 3)) :=
  ⟨by decide, parse_prefix_monotonic [42, 49, 10, 49, 10, 120] 3 (by decide)⟩

theorem toUppercase_CLEAR : toUppercase CLEAR = CLEAR := rfl

theorem toUppercase_PUSH : toUppercase PUSH = PUSH := rfl

theorem toUppercase_REMOVE : toUppercase REMOVE = REMOVE := rfl

theorem toUppercase_INSERT : toUppercase INSERT = INSERT := rfl

theorem toUppercase_POP : toUppercase POP = POP := rfl

/-- C5: for every LMOD PUSH of one or more values onto an existing list:
every value is checked with the value encoder before any mutation; if any
value fails the check the response is encoding-error and the list is
unchanged; if all pass and the registry is okay, all values are appended to
the end of the list in the order given in one single update, and the
response is okay. -/
theorem lmod_push_batch (venc kenc : Buf → Bool) (okay : Bool) (tbl : ListTable)
    (listname : Buf) (vs l : List Buf)
    (hl : tbl_get tbl listname = some l) (hvs : vs ≠ []) :
    lmod venc kenc okay tbl (listname :: PUSH :: vs) =
      if vs.all venc then
        if okay then (LmodResp.okay, tbl_set tbl listname (l ++ vs))
        else (LmodResp.server_err, tbl)
      else (LmodResp.encoding_err, tbl) := by
  simp only [lmod]
  rw [toUppercase_PUSH]
  rw [if_neg (by decide), if_pos rfl]
  rw [if_neg (by simp [List.isEmpty_iff, hvs])]
  rw [hl]

theorem lmod_push_batch_witness :
    (tbl_get [([76], [[120]])] [76] = some [[120]] ∧ ([[121]] : List Buf) ≠ []) ∧
    lmod (fun _ => true) (fun _ => true) true [([76], [[120]])] ([76] :: PUSH :: [[121]]) =
      (if ([[121]] : List Buf).all (fun _ => true) then
        if true then (LmodResp.okay, tbl_set [([76], [[120]])] [76] ([[120]] ++ [[121]]))
        else (LmodResp.server_err, [([76], [[120]])])
      else (LmodResp.encoding_err, [([76], [[120]])])) :=
  ⟨⟨by decide, by decide⟩,
    lmod_push_batch (fun _ => true) (fun _ => true) true [([76], [[120]])] [76]
      [[121]] [[120]] (by decide) (by decide)⟩

/-- C6: for every LMOD INSERT with index i and a well-encoded value on an
existing list of current length L, with the registry okay: if i < L the
value is inserted at position i shifting the suffix right and the new length
is L + 1 with response okay; if i ≥ L the list is left unchanged and the
response is bad-index. -/
theorem lmod_insert_spec (venc kenc : Buf → Bool) (tbl : ListTable)
    (listname idxarg value : Buf) (l : List Buf) (i : Nat)
    (hk : kenc listname = true) (hl : tbl_get tbl listname = some l)
    (hv : venc value = true) (hi : parse_usize_str idxarg = some i) :
    lmod venc kenc true tbl (listname :: INSERT :: [idxarg, value]) =
      (if i < l.length then
        (LmodResp.okay, tbl_set tbl listname (l.take i ++ value :: l.drop i))
      else (LmodResp.bad_index, tbl)) ∧
    (l.take i ++ value :: l.drop i).length = l.length + 1 := by
  constructor
  · simp only [lmod]
    rw [toUppercase_INSERT]
    rw [if_neg (by decide), if_neg (by decide), if_neg (by decide), if_pos rfl]
    rw [hi]
    dsimp only
    rw [if_pos hv, if_pos trivial, if_pos hk, hl]
  · simp only [List.length_append, List.length_take, List.length_cons, List.length_drop]
    omega

theorem lmod_insert_spec_witness :
    ((fun (_ : Buf) => true) [76] = true ∧
      tbl_get [([76], [[120]])] [76] = some [[120]] ∧
      (fun (_ : Buf) => true) [121] = true ∧
      parse_usize_str [48] = some 0) ∧
    (lmod (fun _ => true) (fun _ => true) true [([76], [[120]])]
        ([76] :: INSERT :: [[48], [121]]) =
      (if 0 < ([[120]] : List Buf).length then
        (LmodResp.okay, tbl_set [([76], [[120]])] [76]
          (([[120]] : List Buf).take 0 ++ [121] :: ([[120]] : List Buf).drop 0))
      else (LmodResp.bad_index, [([76], [[120]])])) ∧
      (([[120]] : List Buf).take 0 ++ [121] :: ([[120]] : List Buf).drop 0).length =
        ([[120]] : List Buf).length + 1) :=
  ⟨⟨rfl, by decide, rfl, rfl⟩,
    lmod_insert_spec (fun _ => true) (fun _ => true) [([76], [[120]])] [76] [48] [121]
      [[120]] 0 rfl (by decide) rfl rfl⟩

/-- C4: for every mutating handler — each LMOD subcommand in the situation
where it would mutate (its other preconditions hold), and CREATE KEYSPACE on
a well-formed identifier — whenever the global registry okay flag is not set,
the handler writes the canned server-error response and the store state is
returned entirely unchanged. -/
theorem registry_fence_blocks_mutation (venc kenc utf8ok : Buf → Bool)
    (tbl : ListTable) (store : List Buf) (listname ksid idxarg value : Buf)
    (vs l : List Buf) (i : Nat)
    (hl : tbl_get tbl listname = some l) (hvs : vs ≠ [])
    (hvenc : vs.all venc = true) (hval : venc value = true)
    (hidx : parse_usize_str idxarg = some i)
    (hutf : utf8ok ksid = true) (hname : valid_container_name ksid = true)
    (hklen : ksid.length < 64) :
    lmod venc kenc false tbl (listname :: CLEAR :: []) = (.server_err, tbl) ∧
    lmod venc kenc false tbl (listname :: PUSH :: vs) = (.server_err, tbl) ∧
    lmod venc kenc false tbl (listname :: REMOVE :: [idxarg]) = (.server_err, tbl) ∧
    lmod venc kenc false tbl (listname :: INSERT :: [idxarg, value]) = (.server_err, tbl) ∧
    lmod venc kenc false tbl (listname :: POP :: []) = (.server_err, tbl) ∧
    create_keyspace utf8ok false store [ksid] = (.server_err, store) := by
  refine ⟨?_, ?_, ?_, ?_, ?_, ?_⟩
  · simp only [lmod]
    rw [toUppercase_CLEAR, if_pos rfl, if_neg (by decide), hl]
    dsimp only
    rw [if_neg (by decide)]
  · simp only [lmod]
    rw [toUppercase_PUSH, if_neg (by decide), if_pos rfl]
    rw [if_neg (by simp [List.isEmpty_iff, hvs])]
    rw [hl]
    dsimp only
    rw [if_pos hvenc, if_neg (by decide)]
  · simp only [lmod]
    rw [toUppercase_REMOVE, if_neg (by decide), if_neg (by decide), if_pos rfl]
    rw [hidx]
    dsimp only
    rw [if_neg (by decide)]
  · simp only [lmod]
    rw [toUppercase_INSERT,
      if_neg (by decide), if_neg (by decide), if_neg (by decide), if_pos rfl]
    rw [hidx]
    dsimp only
    rw [if_pos hval, if_neg (by decide)]
  · simp only [lmod]
    rw [toUppercase_POP,
      if_neg (by decide), if_neg (by decide), if_neg (by decide), if_neg (by decide),
      if_pos rfl]
    rw [if_neg (by decide)]
  · simp only [create_keyspace]
    rw [if_neg (by simp)]
    rw [if_neg (by simp [hutf]), if_neg (by simp [hname]), if_neg (by omega)]
    rw [if_neg (by decide)]

theorem registry_fence_blocks_mutation_witness :
    (tbl_get [([76], [[120]])] [76] = some [[120]] ∧ ([[121]] : List Buf) ≠ [] ∧
      parse_usize_str [48] = some 0 ∧ valid_container_name [97] = true ∧
      ([97] : Buf).length < 64) ∧
    (lmod (fun _ => true) (fun _ => true) false [([76], [[120]])]
        ([76] :: CLEAR :: []) = (.server_err, [([76], [[120]])]) ∧
      lmod (fun _ => true) (fun _ => true) false [([76], [[120]])]
        ([76] :: PUSH :: [[121]]) = (.server_err, [([76], [[120]])]) ∧
      lmod (fun _ => true) (fun _ => true) false [([76], [[120]])]
        ([76] :: REMOVE :: [[48]]) = (.server_err, [([76], [[120]])]) ∧
      lmod (fun _ => true) (fun _ => true) false [([76], [[120]])]
        ([76] :: INSERT :: [[48], [121]]) = (.server_err, [([76], [[120]])]) ∧
      lmod (fun _ => true) (fun _ => true) false [([76], [[120]])]
        ([76] :: POP :: []) = (.server_err, [([76], [[120]])]) ∧
      create_keyspace (fun _ => true) false [] [[97]] = (.server_err, [])) :=
  ⟨⟨by decide, by decide, rfl, by decide, by decide⟩,
    registry_fence_blocks_mutation (fun _ => true) (fun _ => true) (fun _ => true)
      [([76], [[120]])] [] [76] [97] [48] [121] [[121]] [[120]] 0
      (by decide) (by decide) rfl rfl rfl rfl (by decide) (by decide)⟩

/-- C10: when the registry okay flag is not set and the named list does not
exist in the selected list table, LMOD CLEAR and LMOD PUSH respond nil (the
list lookup precedes the okay-flag check), whereas LMOD REMOVE and LMOD POP
respond server-error (the okay-flag check precedes the list lookup). -/
theorem lmod_poisoned_missing_list (venc kenc : Buf → Bool) (tbl : ListTable)
    (listname idxarg : Buf) (vs : List Buf) (i : Nat)
    (hl : tbl_get tbl listname = none) (hvs : vs ≠ [])
    (hidx : parse_usize_str idxarg = some i) :
    lmod venc kenc false tbl (listname :: CLEAR :: []) = (.nil, tbl) ∧
    lmod venc kenc false tbl (listname :: PUSH :: vs) = (.nil, tbl) ∧
    lmod venc kenc false tbl (listname :: REMOVE :: [idxarg]) = (.server_err, tbl) ∧
    lmod venc kenc false tbl (listname :: POP :: []) = (.server_err, tbl) := by
  refine ⟨?_, ?_, ?_, ?_⟩
  · simp only [lmod]
    rw [toUppercase_CLEAR, if_pos rfl, if_neg (by decide), hl]
  · simp only [lmod]
    rw [toUppercase_PUSH, if_neg (by decide), if_pos rfl]
    rw [if_neg (by simp [List.isEmpty_iff, hvs])]
    rw [hl]
  · simp only [lmod]
    rw [toUppercase_REMOVE, if_neg (by decide), if_neg (by decide), if_pos rfl]
    rw [hidx]
    dsimp only
    rw [if_neg (by decide)]
  · simp only [lmod]
    rw [toUppercase_POP,
      if_neg (by decide), if_neg (by decide), if_neg (by decide), if_neg (by decide),
      if_pos rfl]
    rw [if_neg (by decide)]

theorem lmod_poisoned_missing_list_witness :
    (tbl_get ([] : ListTable) [76] = none ∧ ([[121]] : List Buf) ≠ [] ∧
      parse_usize_str [48] = some 0) ∧
    (lmod (fun _ => true) (fun _ => true) false [] ([76] :: CLEAR :: []) = (.nil, []) ∧
      lmod (fun _ => true) (fun _ => true) false [] ([76] :: PUSH :: [[121]]) = (.nil, []) ∧
      lmod (fun _ => true) (fun _ => true) false [] ([76] :: REMOVE :: [[48]]) =
        (.server_err, []) ∧
      lmod (fun _ => true) (fun _ => true) false [] ([76] :: POP :: []) =
        (.server_err, [])) :=
  ⟨⟨rfl, by decide, rfl⟩,
    lmod_poisoned_missing_list (fun _ => true) (fun _ => true) [] [76] [48] [[121]] 0
      rfl (by decide) rfl⟩

/-- C7 (evaluation at the failing input): the query DROP KEYSPACE ksid force
never reaches the force-drop variant: drop_keyspace requires exactly one
remaining argument, so the two-argument form is rejected with the action
arity error and the store is untouched, making the force-token branch of the
handler unreachable. -/
theorem drop_keyspace_force_arity_rejected (okay : Bool) (store : List (Buf × Nat))
    (ksid : Buf) :
    ddl_drop_keyspace okay store [ksid, FORCE_REMOVE] = (.aerr, store) := by
  simp only [ddl_drop_keyspace]
  rw [if_pos (by simp)]
